import Mathlib

/-
Verification of the selective-repeat file-transfer layer of
piksi_tools/fileio.py against its design description.

The Python module is shallowly embedded: the mutable state of the
SelectiveRepeater class (its window list of invalidated PendingWrite
slots and its pending list of tracked entries) becomes a structure,
each method becomes a pure function on that structure, the wall clock
(time.time) becomes an explicit rational-valued parameter, and
exceptions become an Except error value.  Asynchrony (the link thread
delivering replies while the caller loops) is modelled by explicit
schedules: lists of reply batches interleaved with the loop steps.
-/

set_option maxHeartbeats 1000000
set_option maxRecDepth 20000

namespace PiksiFileio

/-- Constant MAX_PAYLOAD_SIZE = 255 from fileio.py. -/
def MAX_PAYLOAD_SIZE : Nat := 255

/-- Constant SBP_FILEIO_WINDOW_SIZE = 40 from fileio.py. -/
def SBP_FILEIO_WINDOW_SIZE : Nat := 40

/-- Constant SBP_FILEIO_TIMEOUT = 5.0 from fileio.py (seconds, modelled as a rational). -/
def SBP_FILEIO_TIMEOUT : ℚ := 5

/-- Constant MINIMUM_RETRIES = 3 from fileio.py. -/
def MINIMUM_RETRIES : Nat := 3

/-- Errors raised by fileio.py.  timedOut is the Exception from
_check_pending; dirTimeout and dirMismatch are the two Exceptions
raised in FileIO.readdir. -/
inductive FileioError
  | timedOut
  | dirTimeout
  | dirMismatch
deriving DecidableEq, Repr

/-- Embeds class PendingWrite in its tracked state: fields message,
time, tries, complete.  An invalidated PendingWrite (all fields None)
carries no information, so invalidated slots are represented by a bare
count in the SelectiveRepeater state below.  The message type is a
parameter; fileio.py stores MsgFileioWriteReq or MsgFileioReadReq
objects here. -/
structure PendingWrite (α : Type) where
  message : α
  time : ℚ
  tries : Nat
  complete : Bool
deriving DecidableEq, Repr

/-- Embeds PendingWrite.track: load a message into a slot.  Note the
source sets self.tries = 0 ignoring its tries argument, and complete
defaults to False. -/
def PendingWrite.track {α : Type} (msg : α) (t : ℚ) : PendingWrite α :=
  ⟨msg, t, 0, false⟩

/-- Embeds PendingWrite.record_retry: increment tries, refresh time. -/
def PendingWrite.recordRetry {α : Type} (pw : PendingWrite α) (t : ℚ) : PendingWrite α :=
  { pw with tries := pw.tries + 1, time := t }

/-- Embeds the mutable state of class SelectiveRepeater: window is the
list of invalidated PendingWrite objects (invalidated slots are
indistinguishable, so only their number matters) and pending is the
list of tracked in-flight entries. -/
structure SelectiveRepeater (α : Type) where
  window : Nat
  pending : List (PendingWrite α)
deriving DecidableEq, Repr

namespace SelectiveRepeater

/-- Embeds SelectiveRepeater.__init__: window holds
SBP_FILEIO_WINDOW_SIZE invalidated PendingWrite objects, pending is
empty. -/
def init {α : Type} : SelectiveRepeater α :=
  ⟨SBP_FILEIO_WINDOW_SIZE, []⟩

/-- Embeds SelectiveRepeater._window_available: len(window) != 0. -/
def windowAvailable {α : Type} (s : SelectiveRepeater α) : Bool :=
  s.window ≠ 0

/-- Embeds SelectiveRepeater._fetch_pending_write: pop one slot from
window, track msg at the current time, append to pending.  The source
runs this only after _wait_window_available, so callers guard with
window not 0 (window.pop(0) on an empty list would raise). -/
def fetchPendingWrite {α : Type} (msg : α) (t : ℚ) (s : SelectiveRepeater α) :
    SelectiveRepeater α :=
  ⟨s.window - 1, s.pending ++ [PendingWrite.track msg t]⟩

/-- Embeds SelectiveRepeater._return_pending_write: remove the given
entry from pending (pending.pop(pending.index(pw)) removes the first
occurrence) and append it, invalidated, to window. -/
def returnPendingWrite {α : Type} [DecidableEq α] (pw : PendingWrite α)
    (s : SelectiveRepeater α) : SelectiveRepeater α :=
  ⟨s.window + 1, s.pending.erase pw⟩

/-- Embeds the loop body of SelectiveRepeater._cb over the snapshot
pending[:].  For each entry whose tracked message has the reply's
sequence number the source invokes the session callback, marks the
entry complete and returns it to the window.  Returns (remaining
pending entries, slots returned to the window, number of session
callback invocations).  seqOf extracts the sequence field of a tracked
message. -/
def cbLoop {α : Type} (seqOf : α → Nat) (s : Nat) :
    List (PendingWrite α) → List (PendingWrite α) × Nat × Nat
  | [] => ([], 0, 0)
  | pw :: rest =>
    let r := cbLoop seqOf s rest
    if seqOf pw.message = s then (r.1, r.2.1 + 1, r.2.2 + 1)
    else (pw :: r.1, r.2.1, r.2.2)

/-- Embeds SelectiveRepeater._cb for a reply with sequence number s:
the new state plus the number of session-callback invocations. -/
def cbStep {α : Type} (seqOf : α → Nat) (s : Nat) (st : SelectiveRepeater α) :
    SelectiveRepeater α × Nat :=
  let r := cbLoop seqOf s st.pending
  (⟨st.window + r.2.1, r.1⟩, r.2.2)

/-- Embeds SelectiveRepeater._check_pending.  The clock clk models the
successive time.time() readings; the source reads the clock once per
incomplete entry, so index i advances only on incomplete entries.
Returns the updated pending list and the list of retransmitted
messages (self.link(pending_write.message) calls, in order), or the
timedOut error when an incomplete late entry has tries at or above
MINIMUM_RETRIES. -/
def checkPending {α : Type} (clk : Nat → ℚ) :
    Nat → List (PendingWrite α) → Except FileioError (List (PendingWrite α) × List α)
  | _, [] => .ok ([], [])
  | i, pw :: rest =>
    if pw.complete then
      match checkPending clk i rest with
      | .ok (p, sent) => .ok (pw :: p, sent)
      | .error e => .error e
    else
      let tnow := clk i
      if tnow - pw.time > SBP_FILEIO_TIMEOUT then
        if pw.tries ≥ MINIMUM_RETRIES then .error .timedOut
        else
          match checkPending clk (i + 1) rest with
          | .ok (p, sent) => .ok (pw.recordRetry tnow :: p, pw.message :: sent)
          | .error e => .error e
      else
        match checkPending clk (i + 1) rest with
        | .ok (p, sent) => .ok (pw :: p, sent)
        | .error e => .error e

/-- Embeds SelectiveRepeater.flush.  Each environment step supplies
the clock readings for that iteration's _check_pending call and the
sequence numbers of the replies the link thread delivers during the
10 ms sleep.  Returns none when the schedule runs out before the loop
exits (the real loop would keep polling), and otherwise the final
state together with the number of loop iterations (retry checks)
performed, or the error propagated out of _check_pending. -/
def flushRun {α : Type} (seqOf : α → Nat) :
    List ((Nat → ℚ) × List Nat) → SelectiveRepeater α →
    Option (Except FileioError (SelectiveRepeater α × Nat))
  | [], s => if s.pending.length = 0 then some (.ok (s, 0)) else none
  | (clk, batch) :: rest, s =>
    if s.pending.length = 0 then some (.ok (s, 0))
    else
      match checkPending clk 0 s.pending with
      | .error e => some (.error e)
      | .ok (p, _) =>
        let s1 := batch.foldl (fun st q => (cbStep seqOf q st).1) ⟨s.window, p⟩
        match flushRun seqOf rest s1 with
        | none => none
        | some (.error e) => some (.error e)
        | some (.ok (s2, n)) => some (.ok (s2, n + 1))

/-- States of a SelectiveRepeater reachable from __init__ by the three
state-changing operations: the issuing role's _fetch_pending_write
(guarded by window availability, as _wait_window_available guarantees),
the reply role's _cb, and a successful _check_pending (which rewrites
the pending list in place). -/
inductive Reachable {α : Type} (seqOf : α → Nat) : SelectiveRepeater α → Prop
  | init : Reachable seqOf init
  | fetch (s : SelectiveRepeater α) (msg : α) (t : ℚ) :
      Reachable seqOf s → s.window ≠ 0 → Reachable seqOf (fetchPendingWrite msg t s)
  | reply (s : SelectiveRepeater α) (q : Nat) :
      Reachable seqOf s → Reachable seqOf (cbStep seqOf q s).1
  | check (s : SelectiveRepeater α) (clk : Nat → ℚ) (p : List (PendingWrite α)) (sent : List α) :
      Reachable seqOf s → checkPending clk 0 s.pending = .ok (p, sent) →
      Reachable seqOf ⟨s.window, p⟩

end SelectiveRepeater

/-- Embeds the state of class FileIO: the private sequence counter
_seq.  __init__ sets it to random.randint(0, 0xffffffff); the random
draw is external, so the model takes the drawn value as a field. -/
structure FileIo where
  seq : Nat
deriving DecidableEq, Repr

/-- Embeds FileIO.next_seq: self._seq += 1; return self._seq.  The
counter is a plain Python integer: no 32-bit mask is applied anywhere
in fileio.py. -/
def FileIo.next_seq (f : FileIo) : Nat × FileIo :=
  (f.seq + 1, ⟨f.seq + 1⟩)

/-- Iterate of the state part of FileIo.next_seq, for stating
monotonic growth over many requests. -/
def FileIo.seqIter : Nat → FileIo → FileIo
  | 0, f => f
  | n + 1, f => FileIo.seqIter n (FileIo.next_seq f).2

/- ----------------------------------------------------------------
Write session (FileIO.write).
---------------------------------------------------------------- -/

/-- Embeds the chunking loop of FileIO.write with explicit fuel (the
loop advances offset by at least one byte per iteration whenever
2 ≤ chunksize, so fuel data.length suffices; the source loop never
terminates when chunksize ≤ 1, which needs a 246-byte filename).
Bytes are opaque naturals.  Emits the (offset, chunk) pair of each
MsgFileioWriteReq issued: the source builds the message with
filename + NUL + chunk and offset, where
chunk = data[offset : offset + chunksize - 1].  The end_index local of
the source is computed but never used and is omitted. -/
def writeLoopF (chunksize : Nat) (data : List Nat) : Nat → Nat → List (Nat × List Nat)
  | _, 0 => []
  | offset, fuel + 1 =>
    if offset < data.length ∧ 2 ≤ chunksize then
      let chunk := (data.drop offset).take (chunksize - 1)
      (offset, chunk) :: writeLoopF chunksize data (offset + chunk.length) fuel
    else []

/-- The chunking loop of FileIO.write from a given starting offset. -/
def writeLoop (chunksize : Nat) (data : List Nat) (offset : Nat) : List (Nat × List Nat) :=
  writeLoopF chunksize data offset (data.length + 1 - offset)

/-- Embeds the request stream of FileIO.write(filename, data) at
offset 0: chunksize = MAX_PAYLOAD_SIZE - len(filename) - 9. -/
def writeRequests (filename data : List Nat) : List (Nat × List Nat) :=
  writeLoop (MAX_PAYLOAD_SIZE - filename.length - 9) data 0

/-- Modelled from the spec's words (claim C2), for comparison with
writeRequests: the data is split into consecutive chunks of exactly
chunksize bytes each except a shorter final chunk. -/
def specChunksF (chunksize : Nat) (data : List Nat) : Nat → Nat → List (Nat × List Nat)
  | _, 0 => []
  | offset, fuel + 1 =>
    if offset < data.length ∧ 1 ≤ chunksize then
      let chunk := (data.drop offset).take chunksize
      (offset, chunk) :: specChunksF chunksize data (offset + chunk.length) fuel
    else []

/-- Modelled from the spec's words (claim C2): the request stream the
claim describes, with per-request payloads of exactly
MAX_PAYLOAD_SIZE - len(filename) - 9 bytes except the final one. -/
def specWriteRequests (filename data : List Nat) : List (Nat × List Nat) :=
  specChunksF (MAX_PAYLOAD_SIZE - filename.length - 9) data 0 data.length

/-- Offsets partition the payload stream: each emitted offset equals
the running total of the payload lengths before it (no byte revisited
or skipped, offsets monotonically increasing). -/
def Partitions : Nat → List (Nat × List Nat) → Prop
  | _, [] => True
  | off, p :: rest => p.1 = off ∧ Partitions (off + p.2.length) rest

/- ----------------------------------------------------------------
Read session (FileIO.read).
---------------------------------------------------------------- -/

/-- One (request, response) pair handed to the read callback: the
matched request's offset and the response's contents.  Every read
request of one session carries the same chunk_size, which the
callback functions below take as the parameter c. -/
structure ReadReply where
  offset : Nat
  contents : List Nat
deriving DecidableEq, Repr

/-- State of the read closure: the done flag and the reassembly
buffer buf. -/
structure ReadState where
  done : Bool
  buf : List Nat
deriving DecidableEq, Repr

/-- Embeds the buffer update of the cb closure in FileIO.read: grow
buf with zero fill up to req.offset if it is shorter, then the Python
slice assignment buf[off : off + len(contents)] = contents. -/
def bufWrite (b : List Nat) (off : Nat) (contents : List Nat) : List Nat :=
  let b0 := if b.length < off then b ++ List.replicate (off - b.length) 0 else b
  b0.take off ++ contents ++ b0.drop (off + contents.length)

/-- Embeds the cb closure in FileIO.read for requested chunk size c:
write the contents at the request offset, and set done when the
response is not exactly c bytes. -/
def readCb (c : Nat) (s : ReadState) (r : ReadReply) : ReadState :=
  { buf := bufWrite s.buf r.offset r.contents,
    done := if r.contents.length ≠ c then true else s.done }

/-- The replies a file of the given bytes produces under chunk size c:
requests at offsets 0, c, 2c, ... each answered with the c bytes at
that offset, the last reply (at offset (len / c) * c) strictly shorter
than c — zero-length when c divides the length. -/
def chunkReplies (c : Nat) (data : List Nat) : List ReadReply :=
  (List.range (data.length / c + 1)).map
    (fun i => ⟨i * c, (data.drop (i * c)).take c⟩)

/-- Embeds the request-issuing loop of FileIO.read together with the
asynchronous reply delivery.  Each schedule element is the batch of
replies the link thread delivers before the loop next tests
closure[done]; while not done, the loop issues a request at the
current offset and advances it by c.  Returns the final closure state
and the offsets of the issued requests, in order.  An exhausted
schedule ends the model (the real loop would keep waiting). -/
def readRun (c : Nat) : List (List ReadReply) → ReadState → Nat → ReadState × List Nat
  | [], s, _ => (s, [])
  | batch :: rest, s, off =>
    let s1 := batch.foldl (readCb c) s
    if s1.done then (s1, [])
    else
      let r := readRun c rest s1 (off + c)
      (r.1, off :: r.2)

/- ----------------------------------------------------------------
Directory listing (FileIO.readdir).
---------------------------------------------------------------- -/

/-- Embeds MsgFileioReadDirResp as used by readdir: sequence and
contents bytes. -/
structure MsgFileioReadDirResp where
  sequence : Nat
  contents : List Nat
deriving DecidableEq, Repr

/-- Embeds str(bytearray(contents)).rstrip(NUL): drop all trailing
zero bytes. -/
def rstripNul (l : List Nat) : List Nat :=
  (l.reverse.dropWhile (fun b => b == 0)).reverse

/-- Embeds the loop of FileIO.readdir.  The replies list models the
successive results of self.link.wait (none is a timeout).  Each
iteration takes a fresh sequence number, sends a request at
offset = len(files) (recorded in the first component), and examines
the reply: a timeout or a sequence mismatch raises; an empty page
(after stripping trailing NULs) returns the accumulated files;
otherwise the page is split on NUL and appended.  The outcome is none
when the schedule of replies runs out with the loop still going. -/
def readdirRun :
    List (Option MsgFileioReadDirResp) → Nat → List (List Nat) →
    List Nat × Option (Except FileioError (List (List Nat)))
  | [], _, _ => ([], none)
  | r :: rs, seq, files =>
    let off := files.length
    match r with
    | none => ([off], some (.error .dirTimeout))
    | some reply =>
      if reply.sequence ≠ seq + 1 then ([off], some (.error .dirMismatch))
      else
        let chunk := rstripNul reply.contents
        if chunk.length = 0 then ([off], some (.ok files))
        else
          let rec' := readdirRun rs (seq + 1) (files ++ chunk.splitOn 0)
          (off :: rec'.1, rec'.2)

/-- A reply that lets readdir continue past or finish this page: it
arrived (not a timeout) and its sequence matches the request. -/
def goodPage (r : Option MsgFileioReadDirResp) (expSeq : Nat) : Prop :=
  ∃ m, r = some m ∧ m.sequence = expSeq ∧ rstripNul m.contents ≠ []

/-- A reply on which readdir raises: a timeout (none) or a sequence
mismatch. -/
def badPage (r : Option MsgFileioReadDirResp) (expSeq : Nat) : Prop :=
  r = none ∨ ∃ m, r = some m ∧ m.sequence ≠ expSeq

/-- The replies of a clean paginated listing: page i arrives with the
expected sequence number seq + i + 1. -/
def goodReplies (seq : Nat) (pages : List (List Nat)) : List (Option MsgFileioReadDirResp) :=
  (List.range pages.length).map (fun i => some ⟨seq + i + 1, pages.getD i []⟩)

/- ----------------------------------------------------------------
Helper lemmas: the _cb loop.
---------------------------------------------------------------- -/

namespace SelectiveRepeater

theorem cbLoop_len {α : Type} (seqOf : α → Nat) (s : Nat) (l : List (PendingWrite α)) :
    (cbLoop seqOf s l).1.length + (cbLoop seqOf s l).2.1 = l.length := by
  induction l with
  | nil => rfl
  | cons pw rest ih =>
    simp only [cbLoop]
    by_cases h : seqOf pw.message = s <;> simp [h] <;> omega

theorem cbLoop_counts_eq {α : Type} (seqOf : α → Nat) (s : Nat) (l : List (PendingWrite α)) :
    (cbLoop seqOf s l).2.2 = (cbLoop seqOf s l).2.1 := by
  induction l with
  | nil => rfl
  | cons pw rest ih =>
    simp only [cbLoop]
    by_cases h : seqOf pw.message = s <;> simp [h, ih]

theorem cbLoop_none {α : Type} (seqOf : α → Nat) (s : Nat) (l : List (PendingWrite α))
    (h : ∀ pw ∈ l, seqOf pw.message ≠ s) :
    cbLoop seqOf s l = (l, 0, 0) := by
  induction l with
  | nil => rfl
  | cons pw rest ih =>
    have h1 : seqOf pw.message ≠ s := h pw (List.mem_cons_self pw rest)
    have h2 := ih (fun q hq => h q (List.mem_cons_of_mem pw hq))
    simp [cbLoop, h1, h2]

theorem cbLoop_single {α : Type} (seqOf : α → Nat) (s : Nat) (l : List (PendingWrite α))
    (hnodup : (l.map (fun pw => seqOf pw.message)).Nodup)
    (pw : PendingWrite α) (hpw : pw ∈ l) (hs : seqOf pw.message = s) :
    (cbLoop seqOf s l).2.1 = 1 := by
  induction l with
  | nil => cases hpw
  | cons q rest ih =>
    simp only [List.map_cons, List.nodup_cons] at hnodup
    by_cases hq : seqOf q.message = s
    · have hnone : ∀ x ∈ rest, seqOf x.message ≠ s := by
        intro x hx hxs
        exact hnodup.1 (by
          rw [hq, ← hxs]
          exact List.mem_map_of_mem (fun pw => seqOf pw.message) hx)
      simp [cbLoop, hq, cbLoop_none seqOf s rest hnone]
    · have hpwr : pw ∈ rest := by
        rcases List.mem_cons.mp hpw with h | h
        · exact absurd (h ▸ hs) hq
        · exact h
      simp [cbLoop, hq, ih hnodup.2 hpwr]

theorem checkPending_ok_len {α : Type} (clk : Nat → ℚ) (i : Nat)
    (l : List (PendingWrite α)) (p : List (PendingWrite α)) (sent : List α)
    (h : checkPending clk i l = .ok (p, sent)) : p.length = l.length := by
  induction l generalizing i p sent with
  | nil =>
    simp only [checkPending] at h
    cases h
    rfl
  | cons pw rest ih =>
    simp only [checkPending] at h
    by_cases hc : pw.complete
    · simp only [hc, if_true] at h
      cases hok : checkPending clk i rest with
      | error e => rw [hok] at h; cases h
      | ok pr =>
        rw [hok] at h
        cases h
        simpa using ih i pr.1 pr.2 (by rw [hok])
    · simp only [hc, if_false] at h
      by_cases hl : clk i - pw.time > SBP_FILEIO_TIMEOUT
      · simp only [hl, if_true] at h
        by_cases hr : pw.tries ≥ MINIMUM_RETRIES
        · simp [hr] at h
        · simp only [hr, if_false] at h
          cases hok : checkPending clk (i + 1) rest with
          | error e => rw [hok] at h; cases h
          | ok pr =>
            rw [hok] at h
            cases h
            simpa using ih (i + 1) pr.1 pr.2 (by rw [hok])
      · simp only [hl, if_false] at h
        cases hok : checkPending clk (i + 1) rest with
        | error e => rw [hok] at h; cases h
        | ok pr =>
          rw [hok] at h
          cases h
          simpa using ih (i + 1) pr.1 pr.2 (by rw [hok])

/-- Every reachable SelectiveRepeater state satisfies the window
accounting identity. -/
theorem reachable_sum {α : Type} (seqOf : α → Nat) (s : SelectiveRepeater α)
    (h : Reachable seqOf s) :
    s.window + s.pending.length = SBP_FILEIO_WINDOW_SIZE := by
  induction h with
  | init => rfl
  | fetch s msg t _ hw ih =>
    simp only [fetchPendingWrite, List.length_append, List.length_cons, List.length_nil]
    omega
  | reply s q _ ih =>
    have hlen := cbLoop_len seqOf q s.pending
    simp only [cbStep]
    omega
  | check s clk p sent _ hok ih =>
    have := checkPending_ok_len clk 0 s.pending p sent hok
    simpa [this] using ih

end SelectiveRepeater

open SelectiveRepeater in
/-- C1: in every reachable SelectiveRepeater state — the initial idle
state and the saturated state with zero free slots included — the
number of available window slots plus the number of in-flight entries
equals the capacity SBP_FILEIO_WINDOW_SIZE = 40 and the in-flight set
never exceeds the capacity; moreover _fetch_pending_write (run only
with a slot available, as _wait_window_available guarantees) moves
exactly one slot from the window to the in-flight list, and
_return_pending_write on an in-flight entry moves exactly one entry
back. -/
theorem C1_window_invariant {α : Type} [DecidableEq α] (seqOf : α → Nat)
    (s : SelectiveRepeater α) (h : Reachable seqOf s) :
    s.window + s.pending.length = SBP_FILEIO_WINDOW_SIZE
    ∧ s.pending.length ≤ SBP_FILEIO_WINDOW_SIZE
    ∧ (∀ (msg : α) (t : ℚ), s.window ≠ 0 →
        (fetchPendingWrite msg t s).window + 1 = s.window
        ∧ (fetchPendingWrite msg t s).pending.length = s.pending.length + 1)
    ∧ (∀ pw ∈ s.pending,
        (returnPendingWrite pw s).window = s.window + 1
        ∧ (returnPendingWrite pw s).pending.length + 1 = s.pending.length) := by
  have hsum := reachable_sum seqOf s h
  refine ⟨hsum, by omega, ?_, ?_⟩
  · intro msg t hw
    exact ⟨by simp [fetchPendingWrite]; omega, by simp [fetchPendingWrite]⟩
  · intro pw hpw
    refine ⟨rfl, ?_⟩
    simp [returnPendingWrite, List.length_erase_of_mem hpw]
    have : s.pending.length ≠ 0 := by
      intro h0
      rw [List.length_eq_zero] at h0
      rw [h0] at hpw
      cases hpw
    omega

/-- Witness for C1 at two concrete reachable states: the initial idle
state (invariant with nothing in flight), and the state after one
fetch (window 39, one in-flight entry), where the inner hypotheses of
the fetch and return conjuncts are discharged concretely. -/
theorem C1_window_invariant_witness :
    ((SelectiveRepeater.init : SelectiveRepeater Nat).window
        + (SelectiveRepeater.init : SelectiveRepeater Nat).pending.length
        = SBP_FILEIO_WINDOW_SIZE
      ∧ (SelectiveRepeater.init : SelectiveRepeater Nat).pending.length
        ≤ SBP_FILEIO_WINDOW_SIZE)
    ∧ ((SelectiveRepeater.fetchPendingWrite (5 : Nat) 0
          SelectiveRepeater.init).window
        + (SelectiveRepeater.fetchPendingWrite (5 : Nat) 0
            SelectiveRepeater.init).pending.length = SBP_FILEIO_WINDOW_SIZE
      ∧ (SelectiveRepeater.fetchPendingWrite (5 : Nat) 0
          SelectiveRepeater.init).window ≠ 0
      ∧ PendingWrite.track (5 : Nat) 0 ∈
          (SelectiveRepeater.fetchPendingWrite (5 : Nat) 0
            SelectiveRepeater.init).pending
      ∧ (SelectiveRepeater.fetchPendingWrite (7 : Nat) 1
          (SelectiveRepeater.fetchPendingWrite (5 : Nat) 0
            SelectiveRepeater.init)).window + 1
        = (SelectiveRepeater.fetchPendingWrite (5 : Nat) 0
            SelectiveRepeater.init).window
      ∧ (SelectiveRepeater.returnPendingWrite (PendingWrite.track (5 : Nat) 0)
          (SelectiveRepeater.fetchPendingWrite (5 : Nat) 0
            SelectiveRepeater.init)).pending.length + 1
        = (SelectiveRepeater.fetchPendingWrite (5 : Nat) 0
            SelectiveRepeater.init).pending.length) := by
  have T0 := C1_window_invariant (fun n : Nat => n) SelectiveRepeater.init
    SelectiveRepeater.Reachable.init
  have T := C1_window_invariant (fun n : Nat => n)
    (SelectiveRepeater.fetchPendingWrite 5 0 SelectiveRepeater.init)
    (SelectiveRepeater.Reachable.fetch SelectiveRepeater.init 5 0
      SelectiveRepeater.Reachable.init (by decide))
  exact ⟨⟨T0.1, T0.2.1⟩, T.1, by decide, by decide,
    (T.2.2.1 7 1 (by decide)).1,
    (T.2.2.2 (PendingWrite.track 5 0) (by decide)).2⟩

open SelectiveRepeater in
/-- C4: at a passive retry check (_check_pending), an incomplete
in-flight entry whose age exceeds SBP_FILEIO_TIMEOUT = 5.0 seconds is
handled as follows: with at least MINIMUM_RETRIES = 3 tries the whole
check raises the timeout error (failing the operation, no retransmit of
this or later entries); with fewer tries its retry count grows by
exactly one, its timestamp is refreshed to the current clock reading,
and the very same request message is retransmitted unchanged. -/
theorem C4_retry_policy {α : Type} (clk : Nat → ℚ) (i : Nat)
    (pw : PendingWrite α) (rest : List (PendingWrite α))
    (hc : pw.complete = false)
    (ht : clk i - pw.time > SBP_FILEIO_TIMEOUT) :
    (pw.tries ≥ MINIMUM_RETRIES →
      checkPending clk i (pw :: rest) = .error .timedOut)
    ∧ (pw.tries < MINIMUM_RETRIES → ∀ p sent,
        checkPending clk (i + 1) rest = .ok (p, sent) →
        checkPending clk i (pw :: rest)
          = .ok ({ pw with tries := pw.tries + 1, time := clk i } :: p,
                 pw.message :: sent)) := by
  constructor
  · intro hr
    simp [checkPending, hc, ht, hr]
  · intro hr p sent hok
    have hr' : ¬ pw.tries ≥ MINIMUM_RETRIES := by omega
    simp [checkPending, hc, ht, hr', hok, PendingWrite.recordRetry]

/-- Witness for C4 at concrete inputs: an incomplete entry aged 6
seconds with 3 tries makes the whole check raise the timeout error. -/
theorem C4_retry_policy_witness :
    ((6 : ℚ) - 0 > SBP_FILEIO_TIMEOUT ∧ (3 : Nat) ≥ MINIMUM_RETRIES)
    ∧ SelectiveRepeater.checkPending (fun _ => (6 : ℚ)) 0
        [(⟨5, 0, 3, false⟩ : PendingWrite Nat)] = .error .timedOut :=
  ⟨⟨by norm_num [SBP_FILEIO_TIMEOUT], by decide⟩,
    (C4_retry_policy (fun _ => (6 : ℚ)) 0 ⟨5, 0, 3, false⟩ [] rfl
      (by norm_num [SBP_FILEIO_TIMEOUT])).1 (by decide)⟩

open SelectiveRepeater in
/-- C5: when the in-flight entries carry pairwise-distinct sequence
numbers and one of them has the reply's sequence S, handling the reply
through _cb completes exactly one entry (the in-flight list shrinks by
one), returns exactly one slot to the window, and the session-supplied
per-chunk callback is invoked exactly once, hence at most once, for
that sequence. -/
theorem C5_single_completion {α : Type} (seqOf : α → Nat) (S : Nat)
    (s : SelectiveRepeater α)
    (hnodup : (s.pending.map (fun pw => seqOf pw.message)).Nodup)
    (pw : PendingWrite α) (hpw : pw ∈ s.pending) (hS : seqOf pw.message = S) :
    (cbStep seqOf S s).1.pending.length + 1 = s.pending.length
    ∧ (cbStep seqOf S s).1.window = s.window + 1
    ∧ (cbStep seqOf S s).2 = 1
    ∧ (cbStep seqOf S s).2 ≤ 1 := by
  have h1 := cbLoop_single seqOf S s.pending hnodup pw hpw hS
  have hlen := cbLoop_len seqOf S s.pending
  have hcnt := cbLoop_counts_eq seqOf S s.pending
  refine ⟨?_, ?_, ?_, ?_⟩ <;> simp only [cbStep] <;> omega

/-- Witness for C5 at a concrete state with one in-flight entry of
sequence 5 receiving a reply with sequence 5. -/
theorem C5_single_completion_witness :
    (([(⟨5, 0, 0, false⟩ : PendingWrite Nat)].map (fun pw => pw.message)).Nodup
      ∧ (⟨5, 0, 0, false⟩ : PendingWrite Nat) ∈
          [(⟨5, 0, 0, false⟩ : PendingWrite Nat)])
    ∧ (SelectiveRepeater.cbStep (fun n => n) 5
        (⟨39, [⟨5, 0, 0, false⟩]⟩ : SelectiveRepeater Nat)).2 = 1 :=
  ⟨⟨by decide, by decide⟩,
    (C5_single_completion (fun n => n) 5
      (⟨39, [⟨5, 0, 0, false⟩]⟩ : SelectiveRepeater Nat)
      (by decide) ⟨5, 0, 0, false⟩ (by decide) rfl).2.2.1⟩

open SelectiveRepeater in
/-- C10: a reply whose sequence number matches no in-flight entry
leaves the in-flight list and the window exactly as they were and
never invokes the per-chunk callback. -/
theorem C10_unmatched_reply_frame {α : Type} (seqOf : α → Nat) (S : Nat)
    (s : SelectiveRepeater α)
    (h : ∀ pw ∈ s.pending, seqOf pw.message ≠ S) :
    cbStep seqOf S s = (s, 0) := by
  simp [cbStep, cbLoop_none seqOf S s.pending h]

/-- Witness for C10: a reply with sequence 9 against a single
in-flight entry with sequence 5. -/
theorem C10_unmatched_reply_frame_witness :
    (∀ pw ∈ ([⟨5, 0, 0, false⟩] : List (PendingWrite Nat)),
        pw.message ≠ 9)
    ∧ SelectiveRepeater.cbStep (fun n => n) 9 ⟨39, [⟨5, 0, 0, false⟩]⟩
        = (⟨39, [⟨5, 0, 0, false⟩]⟩, 0) :=
  ⟨by decide,
    C10_unmatched_reply_frame (fun n => n) 9 ⟨39, [⟨5, 0, 0, false⟩]⟩ (by decide)⟩

open SelectiveRepeater in
/-- C6: flush returns normally only in a state whose in-flight set is
empty, and each loop iteration taken while entries remain performs the
passive retry check (whose failure propagates); called with nothing in
flight it returns at once, after zero iterations and zero retry
checks, whatever the environment. -/
theorem C6_flush_completeness {α : Type} (seqOf : α → Nat)
    (env : List ((Nat → ℚ) × List Nat)) (s : SelectiveRepeater α) :
    (∀ s2 n, flushRun seqOf env s = some (.ok (s2, n)) → s2.pending = [])
    ∧ (s.pending = [] → flushRun seqOf env s = some (.ok (s, 0))) := by
  constructor
  · intro s2 n
    induction env generalizing s n with
    | nil =>
      intro h
      simp only [flushRun] at h
      by_cases h0 : s.pending.length = 0
      · simp only [h0, if_true, Option.some.injEq, Except.ok.injEq, Prod.mk.injEq] at h
        rw [← h.1]
        exact List.length_eq_zero.mp h0
      · simp [h0] at h
    | cons step rest ih =>
      intro h
      obtain ⟨clk, batch⟩ := step
      simp only [flushRun] at h
      by_cases h0 : s.pending.length = 0
      · simp only [h0, if_true, Option.some.injEq, Except.ok.injEq, Prod.mk.injEq] at h
        rw [← h.1]
        exact List.length_eq_zero.mp h0
      · simp only [h0, if_false] at h
        cases hok : checkPending clk 0 s.pending with
        | error e => rw [hok] at h; simp at h
        | ok pr =>
          rw [hok] at h
          simp only at h
          cases hrec : flushRun seqOf rest
              (batch.foldl (fun st q => (cbStep seqOf q st).1) ⟨s.window, pr.1⟩) with
          | none => rw [hrec] at h; simp at h
          | some r =>
            rw [hrec] at h
            cases r with
            | error e => simp at h
            | ok q =>
              simp only [Option.some.injEq, Except.ok.injEq, Prod.mk.injEq] at h
              exact ih _ q.2 (by rw [← h.1]; exact hrec)
  · intro hempty
    cases env with
    | nil => simp [flushRun, hempty]
    | cons step rest => obtain ⟨clk, batch⟩ := step; simp [flushRun, hempty]

/-- Witness for C6: flushing the freshly initialised repeater (nothing
in flight) under the empty environment returns it unchanged after zero
retry checks. -/
theorem C6_flush_completeness_witness :
    (SelectiveRepeater.init : SelectiveRepeater Nat).pending = []
    ∧ SelectiveRepeater.flushRun (fun n => n) []
        (SelectiveRepeater.init : SelectiveRepeater Nat)
        = some (.ok (SelectiveRepeater.init, 0)) :=
  ⟨rfl, (C6_flush_completeness (fun n => n) [] SelectiveRepeater.init).2 rfl⟩

/-- C9 as stated is false on the code: FileIO.next_seq applies no
32-bit mask, so from the largest possible random starting value
0xffffffff (a legal draw of randint(0, 0xffffffff)) one call yields
2^32, a 33-bit value, where a silent 32-bit wrap would yield 0. -/
theorem C9_counterexample :
    (FileIo.next_seq ⟨4294967295⟩).1 = 4294967296
    ∧ (4294967295 + 1) % 2 ^ 32 = 0
    ∧ (FileIo.next_seq ⟨4294967295⟩).1 ≠ (4294967295 + 1) % 2 ^ 32
    ∧ ¬ (FileIo.next_seq ⟨4294967295⟩).1 < 2 ^ 32 := by
  refine ⟨rfl, by norm_num, by norm_num [FileIo.next_seq], by norm_num [FileIo.next_seq]⟩

/-- C9 amended: the counter starts at the process-random draw (any
value in [0, 0xffffffff] that randint returns), and every call to
next_seq returns and stores exactly the previous value plus one, so
after n calls the counter is the start plus n (strictly monotone);
no 32-bit wrap is applied anywhere in this module — the value simply
keeps growing past 2^32 - 1. -/
theorem C9_sequence_numbers :
    ∀ (f : FileIo),
      (FileIo.next_seq f).1 = f.seq + 1
      ∧ (FileIo.next_seq f).2.seq = f.seq + 1
      ∧ (∀ n, (FileIo.seqIter n f).seq = f.seq + n)
      ∧ (FileIo.next_seq ⟨4294967295⟩).1 = 4294967296 := by
  intro f
  refine ⟨rfl, rfl, ?_, rfl⟩
  intro n
  induction n generalizing f with
  | zero => rfl
  | succ m ih =>
    show (FileIo.seqIter m ⟨f.seq + 1⟩).seq = f.seq + (m + 1)
    rw [ih ⟨f.seq + 1⟩]
    show f.seq + 1 + m = f.seq + (m + 1)
    omega

/- ----------------------------------------------------------------
Helper lemmas: the write chunking loop.
---------------------------------------------------------------- -/

theorem take_append_drop_len (l : List Nat) (n : Nat) :
    l.take n ++ l.drop (l.take n).length = l := by
  rcases le_or_lt n l.length with h | h
  · rw [List.length_take, Nat.min_eq_left h, List.take_append_drop]
  · rw [List.length_take, Nat.min_eq_right (le_of_lt h),
      List.take_of_length_le (le_of_lt h), List.drop_length, List.append_nil]

theorem writeLoopF_partitions (w : Nat) (data : List Nat) (fuel : Nat) :
    ∀ offset, Partitions offset (writeLoopF w data offset fuel) := by
  induction fuel with
  | zero => intro offset; trivial
  | succ k ih =>
    intro offset
    simp only [writeLoopF]
    split
    · exact ⟨rfl, ih _⟩
    · trivial

theorem writeLoopF_concat (w : Nat) (data : List Nat) (hw : 2 ≤ w) (fuel : Nat) :
    ∀ offset, data.length ≤ offset + fuel →
      (writeLoopF w data offset fuel).flatMap (fun p => p.2) = data.drop offset := by
  induction fuel with
  | zero =>
    intro offset h
    simp only [writeLoopF, List.flatMap_nil]
    exact (List.drop_eq_nil_of_le (by omega)).symm
  | succ k ih =>
    intro offset h
    simp only [writeLoopF]
    split
    · rename_i hcond
      have hchunk : ((data.drop offset).take (w - 1)).length
          = min (w - 1) (data.length - offset) := by
        rw [List.length_take, List.length_drop]
      have hpos : 1 ≤ ((data.drop offset).take (w - 1)).length := by omega
      rw [List.flatMap_cons]
      rw [ih _ (by omega)]
      have hdd : data.drop (offset + ((data.drop offset).take (w - 1)).length)
          = (data.drop offset).drop (((data.drop offset).take (w - 1)).length) := by
        rw [List.drop_drop, Nat.add_comm]
      rw [hdd, take_append_drop_len]
    · rename_i hcond
      have : data.length ≤ offset := by
        by_contra hlt
        exact hcond ⟨by omega, hw⟩
      rw [List.flatMap_nil]
      exact (List.drop_eq_nil_of_le this).symm

theorem writeLoopF_mem (w : Nat) (data : List Nat) (fuel : Nat) :
    ∀ offset p, p ∈ writeLoopF w data offset fuel →
      p.2 = (data.drop p.1).take (w - 1) ∧ 0 < p.2.length ∧ p.2.length ≤ w - 1 := by
  induction fuel with
  | zero => intro offset p hp; cases hp
  | succ k ih =>
    intro offset p hp
    simp only [writeLoopF] at hp
    rcases hcond : decide (offset < data.length ∧ 2 ≤ w) with _ | _
    · rw [if_neg (by simpa using hcond)] at hp
      cases hp
    · have hcond' := of_decide_eq_true hcond
      rw [if_pos hcond'] at hp
      rcases List.mem_cons.mp hp with h | h
      · subst h
        refine ⟨rfl, ?_, ?_⟩ <;>
          simp only [List.length_take, List.length_drop] <;> omega
      · exact ih _ p h

theorem writeLoopF_ne_nil (w : Nat) (data : List Nat) (fuel offset : Nat)
    (h : writeLoopF w data offset fuel ≠ []) :
    offset < data.length ∧ 2 ≤ w := by
  cases fuel with
  | zero => exact absurd rfl h
  | succ k =>
    by_contra hc
    simp only [writeLoopF, if_neg hc] at h
    exact h rfl

theorem writeLoopF_full_slices (w : Nat) (data : List Nat) (fuel : Nat) :
    ∀ offset i, i + 1 < (writeLoopF w data offset fuel).length →
      ((writeLoopF w data offset fuel).getD i (0, [])).2.length = w - 1 := by
  induction fuel with
  | zero => intro offset i hi; simp [writeLoopF] at hi
  | succ k ih =>
    intro offset i hi
    rcases hcond : decide (offset < data.length ∧ 2 ≤ w) with _ | _
    · rw [writeLoopF, if_neg (by simpa using hcond)] at hi
      simp at hi
    · have hcond' := of_decide_eq_true hcond
      rw [writeLoopF, if_pos hcond'] at hi ⊢
      cases i with
      | zero =>
        simp only [List.getD_cons_zero]
        simp only [List.length_cons] at hi
        have hne : writeLoopF w data (offset + ((data.drop offset).take (w - 1)).length) k ≠ [] := by
          intro hnil
          rw [hnil] at hi
          simp at hi
        have hlt := (writeLoopF_ne_nil w data k _ hne).1
        simp only [List.length_take, List.length_drop] at hlt ⊢
        omega
      | succ j =>
        simp only [List.getD_cons_succ]
        exact ih _ j (by simpa using hi)

/-- C2 as stated is false on the code: FileIO.write slices
data[offset : offset + chunksize - 1], one byte less than the
chunksize variable MAX_PAYLOAD_SIZE - len(filename) - 9 that the claim
(and the spec) announces.  With a 243-byte filename the chunksize
variable is 3, so the claim predicts payloads of 3 bytes, yet the code
sends payloads of 2 bytes and advances offsets by 2. -/
theorem C2_counterexample :
    writeRequests (List.replicate 243 0) [1, 2, 3, 4, 5]
      = [(0, [1, 2]), (2, [3, 4]), (4, [5])]
    ∧ specWriteRequests (List.replicate 243 0) [1, 2, 3, 4, 5]
      = [(0, [1, 2, 3]), (3, [4, 5])]
    ∧ writeRequests (List.replicate 243 0) [1, 2, 3, 4, 5]
      ≠ specWriteRequests (List.replicate 243 0) [1, 2, 3, 4, 5] := by
  refine ⟨by decide, by decide, by decide⟩

/-- C2 amended: for a write at offset 0 the data is split into
consecutive chunks of exactly MAX_PAYLOAD_SIZE - len(filename) - 10
bytes (one less than the chunksize variable) except a shorter final
chunk, at monotonically increasing offsets that partition the data
with no byte revisited or skipped; the 600-byte example produces 3
requests at offsets 0, 251, 502 with payload lengths 251, 251, 98 for
a chunksize variable of 252 (effective chunk length 251), not 251. -/
theorem C2_write_chunking (filename data : List Nat)
    (hf : filename.length ≤ 244) :
    Partitions 0 (writeRequests filename data)
    ∧ (writeRequests filename data).flatMap (fun p => p.2) = data
    ∧ (∀ p ∈ writeRequests filename data,
        p.2 = (data.drop p.1).take (MAX_PAYLOAD_SIZE - filename.length - 10)
        ∧ 0 < p.2.length
        ∧ p.2.length ≤ MAX_PAYLOAD_SIZE - filename.length - 10)
    ∧ (∀ i, i + 1 < (writeRequests filename data).length →
        ((writeRequests filename data).getD i (0, [])).2.length
          = MAX_PAYLOAD_SIZE - filename.length - 10)
    ∧ (writeLoop 252 (List.replicate 600 0) 0).map (fun p => (p.1, p.2.length))
        = [(0, 251), (251, 251), (502, 98)] := by
  have hw : 2 ≤ MAX_PAYLOAD_SIZE - filename.length - 9 := by
    simp only [MAX_PAYLOAD_SIZE]
    omega
  have hsub : MAX_PAYLOAD_SIZE - filename.length - 9 - 1
      = MAX_PAYLOAD_SIZE - filename.length - 10 := by
    simp only [MAX_PAYLOAD_SIZE]
    omega
  refine ⟨writeLoopF_partitions _ data _ 0, ?_, ?_, ?_, by decide⟩
  · have := writeLoopF_concat (MAX_PAYLOAD_SIZE - filename.length - 9) data hw
      (data.length + 1 - 0) 0 (by omega)
    simpa [writeRequests, writeLoop] using this
  · intro p hp
    have := writeLoopF_mem (MAX_PAYLOAD_SIZE - filename.length - 9) data _ 0 p hp
    rw [hsub] at this
    exact this
  · intro i hi
    have := writeLoopF_full_slices (MAX_PAYLOAD_SIZE - filename.length - 9) data _ 0 i hi
    rw [hsub] at this
    exact this

/-- Witness for C2 at a concrete input: a one-byte filename (chunksize
variable 245, chunk length 244) writing three bytes in a single
request that carries exactly the data. -/
theorem C2_write_chunking_witness :
    ([97] : List Nat).length ≤ 244
    ∧ (writeRequests [97] [1, 2, 3]).flatMap (fun p => p.2) = [1, 2, 3] :=
  ⟨by decide, (C2_write_chunking [97] [1, 2, 3] (by decide)).2.1⟩

/- ----------------------------------------------------------------
Helper lemmas: directory listing.
---------------------------------------------------------------- -/

theorem goodReplies_cons (seq : Nat) (p : List Nat) (ps : List (List Nat)) :
    goodReplies seq (p :: ps) = some ⟨seq + 1, p⟩ :: goodReplies (seq + 1) ps := by
  simp only [goodReplies, List.length_cons, List.range_succ_eq_map, List.map_cons,
    List.map_map, List.getD_cons_zero, Nat.add_zero]
  refine List.cons_eq_cons.mpr ⟨rfl, ?_⟩
  apply List.map_congr_left
  intro i _
  simp only [Function.comp_apply, List.getD_cons_succ, Option.some.injEq,
    MsgFileioReadDirResp.mk.injEq, and_true]
  omega

theorem readdirRun_good (pages : List (List Nat)) :
    ∀ seq files, (∀ p ∈ pages, rstripNul p ≠ []) →
    readdirRun (goodReplies seq pages ++ [some ⟨seq + pages.length + 1, []⟩]) seq files
      = ((List.range (pages.length + 1)).map
          (fun i => (files ++ (pages.take i).flatMap (fun p => (rstripNul p).splitOn 0)).length),
         some (.ok (files ++ pages.flatMap (fun p => (rstripNul p).splitOn 0)))) := by
  induction pages with
  | nil =>
    intro seq files _
    simp [goodReplies, readdirRun, rstripNul]
  | cons p ps ih =>
    intro seq files hp
    rw [goodReplies_cons]
    have hterm : seq + (p :: ps).length + 1 = (seq + 1) + ps.length + 1 := by
      simp only [List.length_cons]
      omega
    rw [hterm]
    have hpne : rstripNul p ≠ [] := hp p (List.mem_cons_self p ps)
    simp only [List.cons_append, readdirRun]
    rw [if_neg (show ¬ ((⟨seq + 1, p⟩ : MsgFileioReadDirResp).sequence ≠ seq + 1) from
      fun h => h rfl)]
    rw [if_neg (show ¬ ((rstripNul (⟨seq + 1, p⟩ : MsgFileioReadDirResp).contents).length = 0)
      from by simpa [List.length_eq_zero] using hpne)]
    simp only [List.append_eq]
    rw [ih (seq + 1) (files ++ (rstripNul p).splitOn 0)
      (fun q hq => hp q (List.mem_cons_of_mem p hq))]
    have hok : files ++ (p :: ps).flatMap (fun q => (rstripNul q).splitOn 0)
        = (files ++ (rstripNul p).splitOn 0)
          ++ ps.flatMap (fun q => (rstripNul q).splitOn 0) := by
      simp [List.flatMap_cons, List.append_assoc]
    have hmap : (List.range ((p :: ps).length + 1)).map
          (fun i => (files ++ ((p :: ps).take i).flatMap
            (fun q => (rstripNul q).splitOn 0)).length)
        = files.length :: (List.range (ps.length + 1)).map
            (fun i => ((files ++ (rstripNul p).splitOn 0)
              ++ (ps.take i).flatMap (fun q => (rstripNul q).splitOn 0)).length) := by
      rw [List.length_cons, List.range_succ_eq_map, List.map_cons, List.map_map]
      refine List.cons_eq_cons.mpr ⟨by simp, ?_⟩
      apply List.map_congr_left
      intro i _
      simp only [Function.comp_apply, List.take_succ_cons, List.flatMap_cons,
        List.append_assoc]
    rw [hmap, hok]

/-- C7: readdir accumulates pages by splitting each page's contents
(after stripping trailing NULs) on NUL bytes and appending the names,
requests each next page at offset equal to the number of names
accumulated so far, and returns the accumulated list at the first
empty page; in particular the pages a NUL b NUL, c NUL, empty produce
requests at offsets 0, 2, 3 and exactly the names a, b, c. -/
theorem C7_readdir_pagination (seq : Nat) (pages : List (List Nat))
    (files : List (List Nat)) (hp : ∀ p ∈ pages, rstripNul p ≠ []) :
    readdirRun (goodReplies seq pages ++ [some ⟨seq + pages.length + 1, []⟩]) seq files
      = ((List.range (pages.length + 1)).map
          (fun i => (files ++ (pages.take i).flatMap (fun p => (rstripNul p).splitOn 0)).length),
         some (.ok (files ++ pages.flatMap (fun p => (rstripNul p).splitOn 0))))
    ∧ readdirRun (goodReplies 0 [[97, 0, 98, 0], [99, 0]] ++ [some ⟨3, []⟩]) 0 []
      = ([0, 2, 3], some (.ok [[97], [98], [99]])) :=
  ⟨readdirRun_good pages seq files hp, rfl⟩

/-- Witness for C7 at the concrete pages of the claim. -/
theorem C7_readdir_pagination_witness :
    (∀ p ∈ [[97, 0, 98, 0], [99, 0]], rstripNul p ≠ [])
    ∧ readdirRun (goodReplies 0 [[97, 0, 98, 0], [99, 0]] ++ [some ⟨3, []⟩]) 0 []
      = ([0, 2, 3], some (.ok [[97], [98], [99]])) :=
  ⟨by decide,
    (C7_readdir_pagination 0 [[97, 0, 98, 0], [99, 0]] [] (by decide)).2⟩

/-- C8: readdir raises (aborting with an error value that carries no
partial listing) exactly when the run first meets a reply that either
timed out (none) or carries a sequence number different from its
request's, every earlier reply having been a well-sequenced non-empty
page. -/
theorem C8_readdir_errors (rs : List (Option MsgFileioReadDirResp)) (seq : Nat)
    (files : List (List Nat)) :
    (∃ e, (readdirRun rs seq files).2 = some (.error e)) ↔
    (∃ k, k < rs.length
      ∧ (∀ j, j < k → goodPage (rs.getD j none) (seq + j + 1))
      ∧ badPage (rs.getD k none) (seq + k + 1)) := by
  induction rs generalizing seq files with
  | nil => simp [readdirRun]
  | cons r rest ih =>
    cases r with
    | none =>
      simp only [readdirRun]
      constructor
      · intro _
        exact ⟨0, by simp, fun j hj => absurd hj (Nat.not_lt_zero j), Or.inl rfl⟩
      · intro _
        exact ⟨.dirTimeout, rfl⟩
    | some m =>
      by_cases hs : m.sequence = seq + 1
      · by_cases hne : rstripNul m.contents = []
        · simp only [readdirRun]
          rw [if_neg (show ¬ (m.sequence ≠ seq + 1) from fun h => h hs)]
          rw [if_pos (by simpa [List.length_eq_zero] using hne)]
          constructor
          · rintro ⟨e, he⟩
            simp at he
          · rintro ⟨k, hk, hall, hbad⟩
            cases k with
            | zero =>
              simp only [List.getD_cons_zero] at hbad
              rcases hbad with h | ⟨m', heq, hm'⟩
              · cases h
              · cases heq
                exact absurd hs hm'
            | succ j =>
              have hg := hall 0 (by omega)
              simp only [List.getD_cons_zero] at hg
              rcases hg with ⟨m', heq, _, hm'ne⟩
              cases heq
              exact absurd hne hm'ne
        · simp only [readdirRun]
          rw [if_neg (show ¬ (m.sequence ≠ seq + 1) from fun h => h hs)]
          rw [if_neg (show ¬ ((rstripNul m.contents).length = 0) from by
            simpa [List.length_eq_zero] using hne)]
          constructor
          · intro hex
            rcases (ih (seq + 1) (files ++ (rstripNul m.contents).splitOn 0)).mp hex
              with ⟨k, hk, hall, hbad⟩
            refine ⟨k + 1, by simpa using Nat.succ_lt_succ hk, ?_, ?_⟩
            · intro j hj
              cases j with
              | zero => exact ⟨m, rfl, hs, hne⟩
              | succ j' =>
                have harith : seq + (j' + 1) + 1 = (seq + 1) + j' + 1 := by omega
                rw [List.getD_cons_succ, harith]
                exact hall j' (by omega)
            · have harith : seq + (k + 1) + 1 = (seq + 1) + k + 1 := by omega
              rw [List.getD_cons_succ, harith]
              exact hbad
          · rintro ⟨k, hk, hall, hbad⟩
            cases k with
            | zero =>
              simp only [List.getD_cons_zero] at hbad
              rcases hbad with h | ⟨m', heq, hm'⟩
              · cases h
              · cases heq
                exact absurd hs hm'
            | succ k' =>
              apply (ih (seq + 1) (files ++ (rstripNul m.contents).splitOn 0)).mpr
              refine ⟨k', by simpa using Nat.lt_of_succ_lt_succ hk, ?_, ?_⟩
              · intro j hj
                have harith : (seq + 1) + j + 1 = seq + (j + 1) + 1 := by omega
                rw [harith]
                have := hall (j + 1) (by omega)
                rwa [List.getD_cons_succ] at this
              · have harith : (seq + 1) + k' + 1 = seq + (k' + 1) + 1 := by omega
                rw [harith]
                have := hbad
                rwa [List.getD_cons_succ] at this
      · simp only [readdirRun]
        rw [if_pos hs]
        constructor
        · intro _
          exact ⟨0, by simp, fun j hj => absurd hj (Nat.not_lt_zero j), Or.inr ⟨m, rfl, hs⟩⟩
        · intro _
          exact ⟨.dirMismatch, rfl⟩

/- ----------------------------------------------------------------
Helper lemmas: read reassembly.  nth b j is the byte at position j of
the reassembly buffer, 0 past the end (0 is also the zero-fill byte).
---------------------------------------------------------------- -/

/-- Byte of a buffer at a position, 0 beyond the end. -/
def nth (l : List Nat) (j : Nat) : Nat := l.getD j 0

theorem nth_nil (j : Nat) : nth [] j = 0 := by
  cases j <;> rfl

theorem nth_cons_succ (a : Nat) (l : List Nat) (j : Nat) : nth (a :: l) (j + 1) = nth l j := rfl

theorem nth_eq_zero_of_le (l : List Nat) (j : Nat) (h : l.length ≤ j) : nth l j = 0 := by
  induction l generalizing j with
  | nil => exact nth_nil j
  | cons a t ih =>
    cases j with
    | zero => simp at h
    | succ i =>
      rw [nth_cons_succ]
      exact ih i (by simpa using h)

theorem nth_append (l1 l2 : List Nat) (j : Nat) :
    nth (l1 ++ l2) j = if j < l1.length then nth l1 j else nth l2 (j - l1.length) := by
  induction l1 generalizing j with
  | nil => simp [nth_nil]
  | cons a t ih =>
    cases j with
    | zero => simp [nth]
    | succ i =>
      simp only [List.cons_append, nth_cons_succ, List.length_cons,
        Nat.succ_lt_succ_iff, Nat.succ_sub_succ]
      exact ih i

theorem nth_replicate (n j : Nat) : nth (List.replicate n 0) j = 0 := by
  induction n generalizing j with
  | zero => exact nth_nil j
  | succ k ih =>
    cases j with
    | zero => rfl
    | succ i => rw [List.replicate_succ, nth_cons_succ]; exact ih i

theorem nth_take (l : List Nat) (n j : Nat) :
    nth (l.take n) j = if j < n then nth l j else 0 := by
  induction l generalizing n j with
  | nil => simp [nth_nil]
  | cons a t ih =>
    cases n with
    | zero => simp [nth_nil]
    | succ m =>
      cases j with
      | zero => simp [nth]
      | succ i =>
        simp only [List.take_succ_cons, nth_cons_succ, Nat.succ_lt_succ_iff]
        exact ih m i

theorem nth_drop (l : List Nat) (n j : Nat) : nth (l.drop n) j = nth l (n + j) := by
  induction l generalizing n with
  | nil => simp [nth_nil]
  | cons a t ih =>
    cases n with
    | zero => simp
    | succ m =>
      rw [List.drop_succ_cons, ih m]
      have : m + 1 + j = (m + j) + 1 := by omega
      rw [this, nth_cons_succ]

theorem bufWrite_length (b : List Nat) (off : Nat) (cs : List Nat) :
    (bufWrite b off cs).length = max b.length (off + cs.length) := by
  simp only [bufWrite]
  split <;> rename_i h <;>
    simp only [List.length_append, List.length_take, List.length_replicate,
      List.length_drop] <;> omega

theorem nth_bufWrite (b : List Nat) (off : Nat) (cs : List Nat) (j : Nat) :
    nth (bufWrite b off cs) j
      = if off ≤ j ∧ j < off + cs.length then nth cs (j - off) else nth b j := by
  have hb0 : ∀ i,
      nth (if b.length < off then b ++ List.replicate (off - b.length) 0 else b) i
        = nth b i := by
    intro i
    split
    · rw [nth_append]
      split
      · rfl
      · rename_i h1 h2
        rw [nth_replicate, nth_eq_zero_of_le b i (by omega)]
    · rfl
  have hlen : off ≤
      (if b.length < off then b ++ List.replicate (off - b.length) 0 else b).length := by
    split <;> rename_i h
    · simp only [List.length_append, List.length_replicate]
      omega
    · omega
  rw [show bufWrite b off cs
      = (if b.length < off then b ++ List.replicate (off - b.length) 0 else b).take off
        ++ cs
        ++ (if b.length < off then b ++ List.replicate (off - b.length) 0 else b).drop
            (off + cs.length) from rfl]
  generalize hg : (if b.length < off then b ++ List.replicate (off - b.length) 0 else b)
      = b0 at hb0 hlen
  rw [nth_append, List.length_append, List.length_take, Nat.min_eq_left hlen]
  by_cases h1 : j < off + cs.length
  · rw [if_pos h1, nth_append, List.length_take, Nat.min_eq_left hlen]
    by_cases h2 : j < off
    · rw [if_pos h2, nth_take, if_pos h2, hb0, if_neg (by omega)]
    · rw [if_neg h2, if_pos ⟨by omega, by omega⟩]
  · rw [if_neg h1, nth_drop, if_neg (by omega)]
    have harith : off + cs.length + (j - (off + cs.length)) = j := by omega
    rw [harith, hb0]

theorem foldl_readCb_done (c : Nat) (rs : List ReadReply) (s : ReadState) :
    (rs.foldl (readCb c) s).done
      = (s.done || rs.any (fun r => r.contents.length != c)) := by
  induction rs generalizing s with
  | nil => simp
  | cons r rest ih =>
    rw [List.foldl_cons, ih, List.any_cons]
    by_cases h : r.contents.length = c
    · simp [readCb, h]
    · simp [readCb, h]

theorem foldl_readCb_buf_len (c : Nat) (rs : List ReadReply) (s : ReadState) :
    (rs.foldl (readCb c) s).buf.length
      = rs.foldl (fun m r => max m (r.offset + r.contents.length)) s.buf.length := by
  induction rs generalizing s with
  | nil => rfl
  | cons r rest ih =>
    rw [List.foldl_cons, List.foldl_cons, ih]
    congr 1
    show (bufWrite s.buf r.offset r.contents).length = _
    rw [bufWrite_length]

theorem foldl_readCb_nth_frame (c : Nat) (rs : List ReadReply) (s : ReadState) (j : Nat)
    (h : ∀ r ∈ rs, ¬ (r.offset ≤ j ∧ j < r.offset + r.contents.length)) :
    nth (rs.foldl (readCb c) s).buf j = nth s.buf j := by
  induction rs generalizing s with
  | nil => rfl
  | cons r rest ih =>
    rw [List.foldl_cons, ih _ (fun q hq => h q (List.mem_cons_of_mem r hq))]
    show nth (bufWrite s.buf r.offset r.contents) j = nth s.buf j
    rw [nth_bufWrite, if_neg (h r (List.mem_cons_self r rest))]

theorem foldl_readCb_nth_value (c : Nat) (rs : List ReadReply) (s : ReadState) (j v : Nat)
    (hall : ∀ r ∈ rs, (r.offset ≤ j ∧ j < r.offset + r.contents.length) →
      nth r.contents (j - r.offset) = v)
    (hex : ∃ r ∈ rs, r.offset ≤ j ∧ j < r.offset + r.contents.length) :
    nth (rs.foldl (readCb c) s).buf j = v := by
  induction rs generalizing s with
  | nil =>
    rcases hex with ⟨r, hr, _⟩
    cases hr
  | cons r rest ih =>
    rw [List.foldl_cons]
    by_cases hrest : ∃ q ∈ rest, q.offset ≤ j ∧ j < q.offset + q.contents.length
    · exact ih (readCb c s r) (fun q hq => hall q (List.mem_cons_of_mem r hq)) hrest
    · have hcov : r.offset ≤ j ∧ j < r.offset + r.contents.length := by
        rcases hex with ⟨q, hq, hqc⟩
        rcases List.mem_cons.mp hq with rfl | hq2
        · exact hqc
        · exact absurd ⟨q, hq2, hqc⟩ hrest
      rw [foldl_readCb_nth_frame c rest (readCb c s r) j
        (fun q hq hqc => hrest ⟨q, hq, hqc⟩)]
      show nth (bufWrite s.buf r.offset r.contents) j = v
      rw [nth_bufWrite, if_pos hcov]
      exact hall r (List.mem_cons_self r rest) hcov

theorem foldl_max_base (rs : List ReadReply) (b : Nat) :
    b ≤ rs.foldl (fun m q => max m (q.offset + q.contents.length)) b := by
  induction rs generalizing b with
  | nil => exact le_refl b
  | cons q rest ih => exact le_trans (le_max_left _ _) (ih _)

theorem foldl_max_le (rs : List ReadReply) (b B : Nat) (hb : b ≤ B)
    (h : ∀ r ∈ rs, r.offset + r.contents.length ≤ B) :
    rs.foldl (fun m r => max m (r.offset + r.contents.length)) b ≤ B := by
  induction rs generalizing b with
  | nil => exact hb
  | cons r rest ih =>
    rw [List.foldl_cons]
    exact ih _ (max_le hb (h r (List.mem_cons_self r rest)))
      (fun q hq => h q (List.mem_cons_of_mem r hq))

theorem le_foldl_max (rs : List ReadReply) (b : Nat) (r : ReadReply) (hr : r ∈ rs) :
    r.offset + r.contents.length
      ≤ rs.foldl (fun m q => max m (q.offset + q.contents.length)) b := by
  induction rs generalizing b with
  | nil => cases hr
  | cons q rest ih =>
    rw [List.foldl_cons]
    rcases List.mem_cons.mp hr with rfl | h
    · exact le_trans (le_max_right _ _) (foldl_max_base rest _)
    · exact ih _ h

theorem mem_chunkReplies (c : Nat) (data : List Nat) (r : ReadReply) :
    r ∈ chunkReplies c data ↔
      ∃ i, i < data.length / c + 1 ∧ r = ⟨i * c, (data.drop (i * c)).take c⟩ := by
  simp only [chunkReplies, List.mem_map, List.mem_range]
  constructor
  · rintro ⟨i, hi, rfl⟩
    exact ⟨i, hi, rfl⟩
  · rintro ⟨i, hi, rfl⟩
    exact ⟨i, hi, rfl⟩

theorem chunkReplies_covers (c : Nat) (hc : 0 < c) (data : List Nat) (j : Nat)
    (hj : j < data.length) :
    ∃ r ∈ chunkReplies c data, r.offset ≤ j ∧ j < r.offset + r.contents.length := by
  refine ⟨⟨(j / c) * c, (data.drop ((j / c) * c)).take c⟩, ?_, ?_, ?_⟩
  · exact (mem_chunkReplies c data _).mpr ⟨j / c, by
      have := Nat.div_le_div_right (c := c) (le_of_lt hj)
      omega, rfl⟩
  · exact Nat.div_mul_le_self j c
  · have h1 : (j / c) * c + j % c = j := by
      rw [Nat.mul_comm]
      exact Nat.div_add_mod j c
    have h2 : j % c < c := Nat.mod_lt j hc
    simp only [List.length_take, List.length_drop]
    omega

theorem chunkReplies_value (c : Nat) (data : List Nat) (r : ReadReply)
    (hr : r ∈ chunkReplies c data) (j : Nat)
    (hcov : r.offset ≤ j ∧ j < r.offset + r.contents.length) :
    nth r.contents (j - r.offset) = nth data j := by
  rcases (mem_chunkReplies c data r).mp hr with ⟨i, hi, rfl⟩
  simp only at hcov ⊢
  have hlen : ((data.drop (i * c)).take c).length = min c (data.length - i * c) := by
    simp [List.length_take, List.length_drop]
  rw [nth_take, if_pos (by omega), nth_drop]
  congr 1
  omega

theorem chunkReplies_end_le (c : Nat) (data : List Nat) (r : ReadReply)
    (hr : r ∈ chunkReplies c data) :
    r.offset + r.contents.length ≤ data.length := by
  rcases (mem_chunkReplies c data r).mp hr with ⟨i, hi, rfl⟩
  simp only [List.length_take, List.length_drop]
  have h1 : (data.length / c) * c ≤ data.length := Nat.div_mul_le_self data.length c
  have h2 : i * c ≤ (data.length / c) * c := Nat.mul_le_mul_right c (by omega)
  omega

theorem chunkReplies_last_mem (c : Nat) (data : List Nat) :
    (⟨(data.length / c) * c, (data.drop ((data.length / c) * c)).take c⟩ : ReadReply)
      ∈ chunkReplies c data :=
  (mem_chunkReplies c data _).mpr ⟨data.length / c, by omega, rfl⟩

theorem chunkReplies_last_end (c : Nat) (hc : 0 < c) (data : List Nat) :
    (data.length / c) * c + ((data.drop ((data.length / c) * c)).take c).length
      = data.length := by
  simp only [List.length_take, List.length_drop]
  have h1 : (data.length / c) * c + data.length % c = data.length := by
    rw [Nat.mul_comm]
    exact Nat.div_add_mod data.length c
  have h2 : data.length % c < c := Nat.mod_lt data.length hc
  omega

theorem chunkReplies_short_exists (c : Nat) (hc : 0 < c) (data : List Nat) :
    ∃ r ∈ chunkReplies c data, r.contents.length ≠ c := by
  refine ⟨_, chunkReplies_last_mem c data, ?_⟩
  simp only [List.length_take, List.length_drop]
  have h1 : (data.length / c) * c + data.length % c = data.length := by
    rw [Nat.mul_comm]
    exact Nat.div_add_mod data.length c
  have h2 : data.length % c < c := Nat.mod_lt data.length hc
  omega

/-- Folding the read callback over any permutation of the chunk
replies of a file reconstructs exactly the file bytes. -/
theorem foldl_readCb_perm_buf (c : Nat) (hc : 0 < c) (data : List Nat)
    (rs : List ReadReply) (hperm : rs.Perm (chunkReplies c data)) :
    (rs.foldl (readCb c) ⟨false, []⟩).buf = data := by
  have hmem : ∀ r ∈ rs, r ∈ chunkReplies c data := fun r hr => hperm.mem_iff.mp hr
  have hlen : (rs.foldl (readCb c) ⟨false, []⟩).buf.length = data.length := by
    rw [foldl_readCb_buf_len]
    apply le_antisymm
    · exact foldl_max_le rs _ data.length (Nat.zero_le _)
        (fun r hr => chunkReplies_end_le c data r (hmem r hr))
    · have hin := hperm.mem_iff.mpr (chunkReplies_last_mem c data)
      calc data.length
          = (⟨(data.length / c) * c, (data.drop ((data.length / c) * c)).take c⟩
              : ReadReply).offset
            + (⟨(data.length / c) * c, (data.drop ((data.length / c) * c)).take c⟩
              : ReadReply).contents.length := (chunkReplies_last_end c hc data).symm
        _ ≤ _ := le_foldl_max rs _ _ hin
  apply List.ext_getElem hlen
  intro i h1 h2
  have hv : nth (rs.foldl (readCb c) ⟨false, []⟩).buf i = nth data i := by
    apply foldl_readCb_nth_value c rs _ i (nth data i)
    · intro r hr hcov
      exact chunkReplies_value c data r (hmem r hr) i hcov
    · rcases chunkReplies_covers c hc data i h2 with ⟨r, hr, hcov⟩
      exact ⟨r, hperm.mem_iff.mpr hr, hcov⟩
  rw [nth, nth, List.getD_eq_getElem _ _ h1, List.getD_eq_getElem _ _ h2] at hv
  exact hv

/-- Folding the read callback over any permutation of the chunk
replies sets the done flag: the terminal reply is strictly shorter
than the requested chunk size (possibly zero-length). -/
theorem foldl_readCb_perm_done (c : Nat) (hc : 0 < c) (data : List Nat)
    (rs : List ReadReply) (hperm : rs.Perm (chunkReplies c data)) :
    (rs.foldl (readCb c) ⟨false, []⟩).done = true := by
  rw [foldl_readCb_done]
  rcases chunkReplies_short_exists c hc data with ⟨r, hr, hne⟩
  have hin : r ∈ rs := hperm.mem_iff.mpr hr
  simp only [Bool.false_or, List.any_eq_true]
  exact ⟨r, hin, by simpa using hne⟩

theorem readRun_done_nil (c : Nat) (sched : List (List ReadReply)) (s : ReadState)
    (off : Nat) (h : s.done = true) : (readRun c sched s off).2 = [] := by
  cases sched with
  | nil => rfl
  | cons batch rest =>
    simp only [readRun]
    rw [if_pos (show (batch.foldl (readCb c) s).done = true by
      rw [foldl_readCb_done, h, Bool.true_or])]

theorem readRun_stop (c : Nat) (sched1 sched2 : List (List ReadReply)) (s : ReadState)
    (off : Nat) (h : (readRun c sched1 s off).1.done = true) :
    (readRun c (sched1 ++ sched2) s off).2 = (readRun c sched1 s off).2 := by
  induction sched1 generalizing s off with
  | nil =>
    rw [List.nil_append, readRun_done_nil c sched2 s off h]
    rfl
  | cons batch rest ih =>
    rw [List.cons_append]
    simp only [readRun] at h ⊢
    by_cases hd : (batch.foldl (readCb c) s).done = true
    · rw [if_pos hd]
      rw [if_pos hd]
    · rw [if_neg hd] at h ⊢
      rw [if_neg hd]
      have h2 : (readRun c rest (batch.foldl (readCb c) s) (off + c)).1.done = true := h
      rw [ih _ _ h2]

theorem readRun_offsets (c : Nat) (sched : List (List ReadReply)) (s : ReadState)
    (off : Nat) :
    (readRun c sched s off).2
      = (List.range (readRun c sched s off).2.length).map (fun i => off + i * c) := by
  induction sched generalizing s off with
  | nil => rfl
  | cons batch rest ih =>
    simp only [readRun]
    by_cases hd : (batch.foldl (readCb c) s).done = true
    · rw [if_pos hd]
      rfl
    · rw [if_neg hd]
      show off :: (readRun c rest _ (off + c)).2 = _
      rw [List.length_cons, List.range_succ_eq_map, List.map_cons, List.map_map]
      refine List.cons_eq_cons.mpr ⟨by omega, ?_⟩
      conv_lhs => rw [ih _ (off + c)]
      apply List.map_congr_left
      intro i _
      simp only [Function.comp_apply, Nat.succ_mul]
      omega

theorem readRun_empties (c : Nat) (m : Nat) (rs : List ReadReply) :
    ∀ (s : ReadState) (off : Nat), s.done = false →
      (rs.foldl (readCb c) s).done = true →
      readRun c (List.replicate m [] ++ [rs]) s off
        = (rs.foldl (readCb c) s, (List.range m).map (fun i => off + i * c)) := by
  induction m with
  | zero =>
    intro s off hd hdone
    simp only [List.replicate_zero, List.nil_append, readRun]
    rw [if_pos hdone]
    rfl
  | succ k ih =>
    intro s off hd hdone
    simp only [List.replicate_succ, List.cons_append, readRun, List.foldl_nil]
    rw [if_neg (by rw [hd]; exact Bool.false_ne_true)]
    simp only [List.append_eq]
    rw [ih s (off + c) hd hdone]
    refine Prod.ext rfl ?_
    show off :: _ = _
    rw [List.range_succ_eq_map, List.map_cons, List.map_map]
    refine List.cons_eq_cons.mpr ⟨by omega, ?_⟩
    apply List.map_congr_left
    intro i _
    simp only [Function.comp_apply, Nat.succ_mul]
    omega

/-- C3 as stated is false on the code: FileIO.read returns as soon as
the done flag is observed, without waiting for outstanding replies.
For the 3-byte file with chunk size 2 (chunk replies at offsets 0 and
2, the one at 2 being the short terminal one), the arrival order in
which the short reply at offset 2 is delivered first — while the reply
for offset 0 is still outstanding, e.g. lost and awaiting
retransmission — makes the loop observe done right after issuing the
requests at offsets 0 and 2, and read returns the zero-filled buffer
0, 0, 3 instead of the file bytes 1, 2, 3. -/
theorem C3_counterexample :
    chunkReplies 2 [1, 2, 3] = [⟨0, [1, 2]⟩, ⟨2, [3]⟩]
    ∧ readRun 2 [[], [], [⟨2, [3]⟩]] ⟨false, []⟩ 0 = (⟨true, [0, 0, 3]⟩, [0, 2])
    ∧ ([0, 0, 3] : List Nat) ≠ [1, 2, 3] :=
  ⟨by decide, by decide, by decide⟩

/-- C3 amended: for a file chunked at offsets 0, c, 2c, ... with the
final chunk strictly shorter than c (zero-length when c divides the
file length — end of file, not an error): folding the reply callback
over the replies in any permutation of arrival order reconstructs a
buffer exactly equal to the original bytes with the done flag set; the
issuing loop schedules requests at consecutive offsets 0, c, 2c, ...
and stops scheduling once the short reply is observed (later
deliveries cause no further requests); and read returns exactly the
original bytes when every reply is processed before the loop observes
done — but not in general, since observing the short reply early makes
read return with zero-filled gaps (see the counterexample). -/
theorem C3_read_reassembly (c : Nat) (hc : 0 < c) (data : List Nat)
    (rs : List ReadReply) (hperm : rs.Perm (chunkReplies c data))
    (sched1 sched2 : List (List ReadReply)) (s : ReadState) (off : Nat)
    (hstop : (readRun c sched1 s off).1.done = true) :
    (rs.foldl (readCb c) ⟨false, []⟩).buf = data
    ∧ (rs.foldl (readCb c) ⟨false, []⟩).done = true
    ∧ readRun c (List.replicate (data.length / c + 1) [] ++ [rs]) ⟨false, []⟩ 0
        = (⟨true, data⟩, (List.range (data.length / c + 1)).map (fun i => i * c))
    ∧ (readRun c (sched1 ++ sched2) s off).2 = (readRun c sched1 s off).2
    ∧ (readRun c sched1 s off).2
        = (List.range (readRun c sched1 s off).2.length).map (fun i => off + i * c) := by
  have h1 := foldl_readCb_perm_buf c hc data rs hperm
  have h2 := foldl_readCb_perm_done c hc data rs hperm
  have hfold : rs.foldl (readCb c) ⟨false, []⟩ = ⟨true, data⟩ := by
    cases hf : rs.foldl (readCb c) (⟨false, []⟩ : ReadState) with
    | mk d b =>
      rw [hf] at h1 h2
      simp only at h1 h2
      rw [h1, h2]
  refine ⟨h1, h2, ?_, readRun_stop c sched1 sched2 s off hstop,
    readRun_offsets c sched1 s off⟩
  rw [readRun_empties c (data.length / c + 1) rs ⟨false, []⟩ 0 rfl h2, hfold]
  refine Prod.ext rfl ?_
  apply List.map_congr_left
  intro i _
  omega

/-- Witness for C3 at the 3-byte file with chunk size 2, the replies
delivered out of order but all processed before the loop exits. -/
theorem C3_read_reassembly_witness :
    ((0 : Nat) < 2
      ∧ ([⟨2, [3]⟩, ⟨0, [1, 2]⟩] : List ReadReply).Perm (chunkReplies 2 [1, 2, 3])
      ∧ (readRun 2 [[⟨2, [3]⟩, ⟨0, [1, 2]⟩]] ⟨false, []⟩ 0).1.done = true)
    ∧ (([⟨2, [3]⟩, ⟨0, [1, 2]⟩] : List ReadReply).foldl (readCb 2) ⟨false, []⟩).buf
        = [1, 2, 3] :=
  ⟨⟨by decide, by decide, by decide⟩,
    (C3_read_reassembly 2 (by decide) [1, 2, 3] [⟨2, [3]⟩, ⟨0, [1, 2]⟩] (by decide)
      [[⟨2, [3]⟩, ⟨0, [1, 2]⟩]] [[]] ⟨false, []⟩ 0 (by decide)).1⟩

end PiksiFileio
